import Mathlib

set_option linter.unusedSectionVars false
set_option linter.unreachableTactic false
set_option linter.unnecessarySeqFocus false
set_option linter.unusedTactic false
set_option linter.unusedVariables false

/-!
Verification of the Brownian-motion simulation notebook.

The source builds, per Hurst parameter `alpha`:
  * a covariance matrix `mat_cov` (fBm kernel, or a quadrature integral for
    the Riemann-Liouville variant), filled only for `s ≤ t` and mirrored;
  * its Cholesky factor `C`, projecting standard-normal noise `z` through it
    (`Y = np.dot(C, z)`) and then pinning `Y[0] = 0`;
  * a standard Brownian path built by the recursion
    `W = [0]; W.append(W[i-1] + z_i)`;
  * a Hurst estimator accumulating `s1` over `range(5, len(X))` and `s2`
    over `range(3, len(X))`, returning `log(s1/s2)/(2 log 2) - alpha`.

Real powers (`**` on floats), `np.log` and the `quad` integral are external
numeric routines; they enter the embedding as function parameters (`pow`,
`log`, `entry`), instantiated with `Real.rpow` etc. in the theorems that
need their mathematical properties.  Random draws are modelled as explicit
input streams `z : ℕ → K`.
-/

section Covariance

variable {K : Type} [LinearOrderedField K]

/-- Write a single matrix entry: models `mat_cov[a, b] = v` on a matrix
represented as a total function. -/
def covWrite (M : ℕ → ℕ → K) (a b : ℕ) (v : K) : ℕ → ℕ → K :=
  fun i j => if i = a ∧ j = b then v else M i j

/-- One iteration of the inner loop body of the covariance assembly:
`mat_cov[t, s] = entry t s` followed by the mirror write
`mat_cov[s, t] = mat_cov[t, s]` (the mirrored value is read back from the
just-updated matrix, exactly as in the source). -/
def covStep (entry : ℕ → ℕ → K) (t : ℕ) (M : ℕ → ℕ → K) (s : ℕ) : ℕ → ℕ → K :=
  covWrite (covWrite M t s (entry t s)) s t ((covWrite M t s (entry t s)) t s)

/-- The inner loop `for s in range(N): if s > t: break; ...` run for
`s = 0, 1, ..., b-1`. -/
def covInnerAux (entry : ℕ → ℕ → K) (t : ℕ) (M : ℕ → ℕ → K) (b : ℕ) : ℕ → ℕ → K :=
  (List.range b).foldl (covStep entry t) M

/-- The inner loop over `s`, which the `break` cuts off at `s = t`. -/
def covInner (entry : ℕ → ℕ → K) (t : ℕ) (M : ℕ → ℕ → K) : ℕ → ℕ → K :=
  covInnerAux entry t M (t + 1)

/-- The full covariance assembly: `mat_cov = np.zeros((N, N))` followed by
the double loop over `t` and `s`, parameterized by the entry function
(the fBm kernel, or the quadrature value for the Riemann-Liouville kernel). -/
def buildCov (entry : ℕ → ℕ → K) (N : ℕ) : ℕ → ℕ → K :=
  (List.range N).foldl (fun M t => covInner entry t M) (fun _ _ => 0)

/-- The fBm covariance kernel as evaluated in the source for `s ≤ t`:
`0.5 * (time[t] ** (2*alpha) + time[s] ** (2*alpha)
        - np.abs(time[t] - time[s]) ** (2*alpha))`,
with the float power `**` passed in as `pow`. -/
def fbmKernel (pow : K → K → K) (time : ℕ → K) (alpha : K) (t s : ℕ) : K :=
  (1 / 2) * (pow (time t) (2 * alpha) + pow (time s) (2 * alpha)
    - pow |time t - time s| (2 * alpha))

/-- The fBm covariance matrix `mat_cov` of the source. -/
def fbmCov (pow : K → K → K) (time : ℕ → K) (alpha : K) (N : ℕ) : ℕ → ℕ → K :=
  buildCov (fbmKernel pow time alpha) N

end Covariance

section Paths

variable {K : Type} [LinearOrderedField K]

/-- One iteration of the Brownian path loop:
`W.append(W[i-1] + np.random.normal(0, 1))`, with the normal draw for loop
index `i` modelled as `z i`. -/
def brownianStep (z : ℕ → K) (W : List K) (i : ℕ) : List K :=
  W ++ [W.getD (i - 1) 0 + z i]

/-- The Brownian path loop `W = [0]; for i in range(1, m+1): ...` run for
`m` iterations. -/
def brownianAux (z : ℕ → K) (m : ℕ) : List K :=
  (List.range' 1 m).foldl (brownianStep z) [0]

/-- The standard Brownian motion path of length `N` from the source:
`W = [0]` followed by `for i in range(1, N): W.append(W[i-1] + z_i)`. -/
def brownianPath (z : ℕ → K) (N : ℕ) : List K :=
  brownianAux z (N - 1)

/-- The projection `Y = np.dot(C, z)` of a noise vector through an `N × N`
factor. -/
def matVec (C : ℕ → ℕ → K) (N : ℕ) (z : ℕ → K) : ℕ → K :=
  fun i => ((List.range N).map (fun j => C i j * z j)).sum

/-- The pinning assignment `Y[0] = 0` after the projection. -/
def pinOrigin (Y : ℕ → K) : ℕ → K :=
  fun i => if i = 0 then 0 else Y i

/-- A fBm / Riemann-Liouville sample path from the source:
`Y = np.dot(C, np.random.normal(0, 1, N)); Y[0] = 0`. -/
def samplePath (C : ℕ → ℕ → K) (N : ℕ) (z : ℕ → K) : ℕ → K :=
  pinOrigin (matVec C N z)

end Paths

section Hurst

variable {K : Type} [LinearOrderedField K]

/-- The estimator numerator accumulation from the source:
`s1 = 0; for i in range(5, len(X)): s1 += np.abs(X[i] - 2*X[i-2] + X[i-4]) ** 2`. -/
def hurstS1 (X : List K) : K :=
  (List.range' 5 (X.length - 5)).foldl
    (fun s i => s + |X.getD i 0 - 2 * X.getD (i - 2) 0 + X.getD (i - 4) 0| ^ 2) 0

/-- The estimator denominator accumulation from the source:
`s2 = 0; for i in range(3, len(X)): s2 += np.abs(X[i] - 2*X[i-1] + X[i-2]) ** 2`. -/
def hurstS2 (X : List K) : K :=
  (List.range' 3 (X.length - 3)).foldl
    (fun s i => s + |X.getD i 0 - 2 * X.getD (i - 1) 0 + X.getD (i - 2) 0| ^ 2) 0

/-- The value appended for one path:
`np.log(s1 / s2) / (2 * np.log(2)) - alpha`, with `np.log` passed in as
`log`. -/
def hurstOffset (log : K → K) (alpha : K) (X : List K) : K :=
  log (hurstS1 X / hurstS2 X) / (2 * log 2) - alpha

/-- The aggregation list `L` of the source: one `L.append(...)` per path of
the batch, unconditionally. -/
def estimateBatch (log : K → K) (alpha : K) (batch : List (List K)) : List K :=
  batch.foldl (fun L X => L ++ [hurstOffset log alpha X]) []

/-- Modelled from the spec: the `s1` sum as the spec states it, over
`i = 4 .. N-1` (the source loop instead starts at `i = 5`). -/
def hurstS1Spec (X : List K) : K :=
  ∑ i in Finset.Ico 4 X.length,
    |X.getD i 0 - 2 * X.getD (i - 2) 0 + X.getD (i - 4) 0| ^ 2

/-- Modelled from the spec: a path is a degenerate input for the estimator
when it is too short or its `s2` denominator vanishes. -/
def DegeneratePath (X : List K) : Prop :=
  X.length < 5 ∨ hurstS2 X = 0

/-- Modelled from the spec: the aggregation with degenerate estimates
excluded from the mean/standard-deviation aggregation (the source has no
such exclusion). -/
def estimateBatchSpec [DecidableEq K] (log : K → K) (alpha : K)
    (batch : List (List K)) : List K :=
  (batch.filter (fun X => decide (5 ≤ X.length ∧ hurstS2 X ≠ 0))).map
    (hurstOffset log alpha)

end Hurst

section PerAlpha

/-- The per-α loop `for alpha in alphas: ... np.linalg.cholesky(mat_cov) ...`
of the source.  The body of one (family, α) unit of work is `work`;
`none` models `np.linalg.cholesky` raising `LinAlgError` (the matrix is not
positive definite).  There is no `try`/`except` in the source, so a raised
exception propagates and terminates the whole loop: the first failing unit
ends the run and no result list is produced. -/
def perAlphaLoop {A B : Type} (work : A → Option B) : List A → Option (List B)
  | [] => some []
  | a :: as =>
    match work a with
    | none => none
    | some b =>
      match perAlphaLoop work as with
      | none => none
      | some bs => some (b :: bs)

/-- Modelled from the spec: failure of one (family, α) unit is scoped to
that unit, every unit is processed and reports its own result. -/
def perAlphaLoopSpec {A B : Type} (work : A → Option B) (alphas : List A) :
    List (Option B) :=
  alphas.map work

end PerAlpha

section CovarianceLemmas

variable {K : Type} [LinearOrderedField K]

theorem covWrite_apply (M : ℕ → ℕ → K) (a b : ℕ) (v : K) (i j : ℕ) :
    covWrite M a b v i j = if i = a ∧ j = b then v else M i j := rfl

theorem covStep_apply (entry : ℕ → ℕ → K) (t s : ℕ) (M : ℕ → ℕ → K) (i j : ℕ) :
    covStep entry t M s i j =
      if i = s ∧ j = t then entry t s
      else if i = t ∧ j = s then entry t s
      else M i j := by
  simp [covStep, covWrite_apply]

theorem covInnerAux_succ (entry : ℕ → ℕ → K) (t : ℕ) (M : ℕ → ℕ → K) (b : ℕ) :
    covInnerAux entry t M (b + 1) = covStep entry t (covInnerAux entry t M b) b := by
  simp [covInnerAux, List.range_succ]

theorem covInnerAux_apply (entry : ℕ → ℕ → K) (t : ℕ) (M : ℕ → ℕ → K) (b : ℕ)
    (i j : ℕ) :
    covInnerAux entry t M b i j =
      if i = t ∧ j < b then entry t j
      else if j = t ∧ i < b ∧ i ≠ t then entry t i
      else M i j := by
  induction b with
  | zero => simp [covInnerAux]
  | succ b ih =>
    rw [covInnerAux_succ, covStep_apply, ih]
    split_ifs <;> first
      | rfl
      | omega
      | (exfalso; omega)
      | (congr 1 <;> first | omega | (congr 1 <;> omega))

theorem buildCov_succ (entry : ℕ → ℕ → K) (N : ℕ) :
    buildCov entry (N + 1) = covInner entry N (buildCov entry N) := by
  simp [buildCov, List.range_succ]

theorem buildCov_apply (entry : ℕ → ℕ → K) (N : ℕ) (i j : ℕ) :
    buildCov entry N i j =
      if i < N ∧ j < N then (if j ≤ i then entry i j else entry j i) else 0 := by
  induction N with
  | zero => simp [buildCov]
  | succ N ih =>
    rw [buildCov_succ, covInner, covInnerAux_apply, ih]
    split_ifs <;> first
      | rfl
      | omega
      | (exfalso; omega)
      | (congr 1 <;> first | omega | (congr 1 <;> omega))

end CovarianceLemmas

section FoldLemmas

variable {K : Type} [LinearOrderedField K]

theorem foldl_add_eq (f : ℕ → K) (c : K) (l : List ℕ) :
    l.foldl (fun s i => s + f i) c = c + (l.map f).sum := by
  induction l generalizing c with
  | nil => simp
  | cons a l ih => simp [ih, add_assoc]

theorem range'_map_sum (f : ℕ → K) (a n : ℕ) :
    ((List.range' a n).map f).sum = ∑ i in Finset.Ico a (a + n), f i := by
  induction n with
  | zero => simp
  | succ n ih =>
    rw [List.range'_concat, List.map_append, List.sum_append,
      ← Nat.add_assoc, Finset.sum_Ico_succ_top (Nat.le_add_right a n)]
    simp [ih]

end FoldLemmas

section PathLemmas

variable {K : Type} [LinearOrderedField K]

theorem brownianAux_succ (z : ℕ → K) (m : ℕ) :
    brownianAux z (m + 1) =
      brownianAux z m ++ [(brownianAux z m).getD m 0 + z (m + 1)] := by
  rw [brownianAux, List.range'_concat, List.foldl_append]
  simp [brownianStep, brownianAux, Nat.add_comm]

theorem brownianAux_length (z : ℕ → K) (m : ℕ) :
    (brownianAux z m).length = m + 1 := by
  induction m with
  | zero => simp [brownianAux]
  | succ m ih => simp [brownianAux_succ, ih]

theorem brownianAux_getD (z : ℕ → K) (m k : ℕ) (hk : k ≤ m) :
    (brownianAux z m).getD k 0 = ∑ i in Finset.Icc 1 k, z i := by
  induction m generalizing k with
  | zero =>
    interval_cases k
    simp [brownianAux]
  | succ m ih =>
    rw [brownianAux_succ]
    rcases Nat.lt_or_ge k (m + 1) with hlt | hge
    · rw [List.getD_append _ _ _ _ (by rw [brownianAux_length]; exact hlt)]
      exact ih k (Nat.lt_succ_iff.mp hlt)
    · have hk1 : k = m + 1 := le_antisymm hk hge
      subst hk1
      rw [List.getD_append_right _ _ _ _ (by rw [brownianAux_length])]
      rw [brownianAux_length]
      simp only [Nat.sub_self, List.getD_cons_zero]
      rw [ih m (Nat.le_refl m), Finset.sum_Icc_succ_top (Nat.succ_le_succ (Nat.zero_le m))]

end PathLemmas

section HurstLemmas

variable {K : Type} [LinearOrderedField K]

theorem hurstS1_eq_sum (X : List K) (h : 5 ≤ X.length) :
    hurstS1 X = ∑ i in Finset.Ico 5 X.length,
      |X.getD i 0 - 2 * X.getD (i - 2) 0 + X.getD (i - 4) 0| ^ 2 := by
  rw [hurstS1, foldl_add_eq, range'_map_sum]
  have h5 : 5 + (X.length - 5) = X.length := by omega
  rw [h5, zero_add]

theorem hurstS2_eq_sum (X : List K) (h : 3 ≤ X.length) :
    hurstS2 X = ∑ i in Finset.Ico 3 X.length,
      |X.getD i 0 - 2 * X.getD (i - 1) 0 + X.getD (i - 2) 0| ^ 2 := by
  rw [hurstS2, foldl_add_eq, range'_map_sum]
  have h3 : 3 + (X.length - 3) = X.length := by omega
  rw [h3, zero_add]

theorem foldl_append_eq (f : List K → K) (batch : List (List K)) (acc : List K) :
    batch.foldl (fun L X => L ++ [f X]) acc = acc ++ batch.map f := by
  induction batch generalizing acc with
  | nil => simp
  | cons X batch ih => simp [ih]

theorem estimateBatch_eq_map (log : K → K) (alpha : K) (batch : List (List K)) :
    estimateBatch log alpha batch = batch.map (hurstOffset log alpha) := by
  rw [estimateBatch, foldl_append_eq, List.nil_append]

end HurstLemmas

theorem half_add_sub_abs (a b : ℝ) : (1 / 2) * (a + b - |a - b|) = min a b := by
  rcases le_total a b with h | h
  · rw [abs_of_nonpos (by linarith), min_eq_left h]
    ring
  · rw [abs_of_nonneg (by linarith), min_eq_right h]
    ring

/-- C4: for every time grid and every α in (0,1), the fBm covariance builder
sets every entry `C[i,j]` to
`0.5 * (t_i^(2α) + t_j^(2α) - |t_i - t_j|^(2α))`, where the power is the
real power `Real.rpow` modelling the float `**`. -/
theorem fbmCov_entry_formula (time : ℕ → ℝ) (alpha : ℝ) (N i j : ℕ)
    (hi : i < N) (hj : j < N) (h0 : 0 < alpha) (h1 : alpha < 1) :
    fbmCov Real.rpow time alpha N i j =
      (1 / 2) * (Real.rpow (time i) (2 * alpha) + Real.rpow (time j) (2 * alpha)
        - Real.rpow |time i - time j| (2 * alpha)) := by
  rw [fbmCov, buildCov_apply]
  simp only [hi, hj, and_self, if_true]
  by_cases hij : j ≤ i
  · simp [hij, fbmKernel]
  · simp only [hij, if_false, fbmKernel, abs_sub_comm (time j) (time i)]
    ring

/-- Witness for `fbmCov_entry_formula` at a concrete grid and α. -/
theorem fbmCov_entry_formula_witness :
    (0 : ℕ) < 1 ∧ (0 : ℝ) < 1 / 2 ∧
      fbmCov Real.rpow (fun _ => (1 : ℝ)) (1 / 2) 1 0 0 =
        (1 / 2) * (Real.rpow 1 (2 * (1 / 2)) + Real.rpow 1 (2 * (1 / 2))
          - Real.rpow |(1 : ℝ) - 1| (2 * (1 / 2))) :=
  ⟨by norm_num, by norm_num,
    fbmCov_entry_formula (fun _ => 1) (1 / 2) 1 0 0 (by norm_num) (by norm_num)
      (by norm_num) (by norm_num)⟩

/-- C5: for every grid and α, the covariance matrix assembled by either
builder (any entry function, covering the fBm kernel and the
Riemann-Liouville quadrature) is exactly symmetric, because each entry is
computed once for `j ≤ i` and mirrored; and every diagonal entry of the fBm
matrix is non-negative. -/
theorem cov_symm_and_diag_nonneg (entry : ℕ → ℕ → ℝ) (time : ℕ → ℝ)
    (alpha : ℝ) (N i j : ℕ) (hi : i < N) (hj : j < N)
    (h0 : 0 < alpha) (h1 : alpha < 1) (ht : ∀ k, 0 < time k) :
    buildCov entry N i j = buildCov entry N j i ∧
      0 ≤ fbmCov Real.rpow time alpha N i i := by
  constructor
  · rw [buildCov_apply, buildCov_apply]
    by_cases hij : j ≤ i
    · by_cases hji : i ≤ j
      · have hij2 : i = j := le_antisymm hji hij
        subst hij2
        simp
      · simp [hi, hj, hij, hji]
    · have hji : i ≤ j := le_of_not_le hij
      simp [hi, hj, hij, hji]
  · rw [fbmCov, buildCov_apply]
    simp only [hi, and_self, if_true, le_refl]
    rw [fbmKernel, sub_self, abs_zero]
    simp only [Real.rpow_eq_pow]
    rw [Real.zero_rpow (ne_of_gt (by linarith : (0 : ℝ) < 2 * alpha))]
    have hp : 0 ≤ (time i) ^ (2 * alpha) :=
      Real.rpow_nonneg (le_of_lt (ht i)) _
    linarith

/-- Witness for `cov_symm_and_diag_nonneg` at a concrete grid and α. -/
theorem cov_symm_and_diag_nonneg_witness :
    buildCov (fun _ _ => (0 : ℝ)) 1 0 0 = buildCov (fun _ _ => (0 : ℝ)) 1 0 0 ∧
      0 ≤ fbmCov Real.rpow (fun _ => (1 : ℝ)) (1 / 2) 1 0 0 :=
  cov_symm_and_diag_nonneg (fun _ _ => 0) (fun _ => 1) (1 / 2) 1 0 0
    (by norm_num) (by norm_num) (by norm_num) (by norm_num) (fun _ => by norm_num)

/-- C6: with α = 0.5 every entry of the fBm covariance matrix equals
`min(t_i, t_j)`: the kernel `0.5 * (t_i + t_j - |t_i - t_j|)` is the
standard Brownian-motion covariance for all non-negative grid times. -/
theorem fbmCov_half_is_min (time : ℕ → ℝ) (N i j : ℕ)
    (hi : i < N) (hj : j < N) (ht : ∀ k, 0 ≤ time k) :
    fbmCov Real.rpow time (1 / 2) N i j = min (time i) (time j) := by
  have h1 : (2 : ℝ) * (1 / 2) = 1 := by norm_num
  rw [fbmCov, buildCov_apply]
  simp only [hi, hj, and_self, if_true]
  by_cases hij : j ≤ i
  · simp only [hij, if_true, fbmKernel, h1, Real.rpow_eq_pow, Real.rpow_one]
    rw [half_add_sub_abs, min_comm]
  · simp only [hij, if_false, fbmKernel, h1, Real.rpow_eq_pow, Real.rpow_one]
    rw [half_add_sub_abs, min_comm]

/-- Witness for `fbmCov_half_is_min` at a concrete grid. -/
theorem fbmCov_half_is_min_witness :
    fbmCov Real.rpow (fun _ => (1 : ℝ)) (1 / 2) 1 0 0 = min (1 : ℝ) 1 :=
  fbmCov_half_is_min (fun _ => 1) 1 0 0 (by norm_num) (by norm_num)
    (fun _ => by norm_num)

/-- C7: for every generated sample path in every batch — standard Brownian
(the `W = [0]` loop), and fBm / Riemann-Liouville (projection through any
factor `C` followed by `Y[0] = 0`) — the value at index 0 is exactly zero. -/
theorem path_starts_at_zero {K : Type} [LinearOrderedField K]
    (z w : ℕ → K) (C : ℕ → ℕ → K) (N M : ℕ) :
    (brownianPath z N).getD 0 0 = 0 ∧ samplePath C M w 0 = 0 := by
  constructor
  · rw [brownianPath, brownianAux_getD z _ 0 (Nat.zero_le _)]
    simp
  · simp [samplePath, pinOrigin]

/-- C8: the standard Brownian path is built by its own recursion, with no
covariance or Cholesky input: it has length `N`, starts at `W[0] = 0`, and
satisfies `W[i] = W[i-1] + z_i` for every `i` in `1 .. N-1`. -/
theorem brownian_recursion {K : Type} [LinearOrderedField K]
    (z : ℕ → K) (N i : ℕ) (hN : 1 ≤ N) (hi1 : 1 ≤ i) (hiN : i < N) :
    (brownianPath z N).length = N ∧ (brownianPath z N).getD 0 0 = 0 ∧
      (brownianPath z N).getD i 0 = (brownianPath z N).getD (i - 1) 0 + z i := by
  refine ⟨?_, ?_, ?_⟩
  · rw [brownianPath, brownianAux_length]
    omega
  · rw [brownianPath, brownianAux_getD z _ 0 (Nat.zero_le _)]
    simp
  · rw [brownianPath, brownianAux_getD z _ i (by omega),
      brownianAux_getD z _ (i - 1) (by omega)]
    obtain ⟨k, rfl⟩ : ∃ k, i = k + 1 := ⟨i - 1, by omega⟩
    simp only [Nat.add_sub_cancel]
    rw [Finset.sum_Icc_succ_top (by omega)]

/-- Witness for `brownian_recursion` at a concrete noise stream. -/
theorem brownian_recursion_witness :
    (1 : ℕ) ≤ 2 ∧
      ((brownianPath (fun n => (n : ℚ)) 2).length = 2 ∧
        (brownianPath (fun n => (n : ℚ)) 2).getD 0 0 = 0 ∧
        (brownianPath (fun n => (n : ℚ)) 2).getD 1 0 =
          (brownianPath (fun n => (n : ℚ)) 2).getD (1 - 1) 0 + (1 : ℚ)) :=
  ⟨by norm_num,
    brownian_recursion (fun n => (n : ℚ)) 2 1 (by norm_num) (by norm_num) (by norm_num)⟩

/-- C9: pinning a projected path at the origin modifies only index 0: for
every noise vector `z` and factor `C`, every entry at an index `i` in
`1 .. N-1` of the pinned path still equals the `i`-th component of `C·z`. -/
theorem pin_preserves_tail {K : Type} [LinearOrderedField K]
    (C : ℕ → ℕ → K) (N : ℕ) (z : ℕ → K) (i : ℕ) (hi1 : 1 ≤ i) (hiN : i < N) :
    samplePath C N z i = matVec C N z i := by
  have h0 : i ≠ 0 := by omega
  simp [samplePath, pinOrigin, h0]

/-- Witness for `pin_preserves_tail` at a concrete factor and noise. -/
theorem pin_preserves_tail_witness :
    (1 : ℕ) ≤ 1 ∧
      samplePath (fun _ _ => (1 : ℚ)) 2 (fun _ => 1) 1 =
        matVec (fun _ _ => (1 : ℚ)) 2 (fun _ => 1) 1 :=
  ⟨by norm_num,
    pin_preserves_tail (fun _ _ => 1) 2 (fun _ => 1) 1 (by norm_num) (by norm_num)⟩

/-- C10: in the estimator as coded, a path of length at most 5 gives an
empty `s1` loop so `s1 = 0` (and the estimate still reaches the division
and logarithm step with that zero sum, no rejection happens), and a path of
length at most 3 gives an empty `s2` loop so `s2 = 0`. -/
theorem short_path_zero_sums {K : Type} [LinearOrderedField K]
    (log : K → K) (alpha : K) (X Y : List K)
    (h5 : X.length ≤ 5) (h3 : Y.length ≤ 3) :
    hurstS1 X = 0 ∧
      hurstOffset log alpha X = log (0 / hurstS2 X) / (2 * log 2) - alpha ∧
      hurstS2 Y = 0 := by
  have hs1 : hurstS1 X = 0 := by
    rw [hurstS1]
    have h : X.length - 5 = 0 := by omega
    rw [h]
    simp
  refine ⟨hs1, ?_, ?_⟩
  · rw [hurstOffset, hs1]
  · rw [hurstS2]
    have h : Y.length - 3 = 0 := by omega
    rw [h]
    simp

/-- Witness for `short_path_zero_sums` at concrete short paths. -/
theorem short_path_zero_sums_witness :
    ([(0 : ℚ), 0, 0, 0].length ≤ 5) ∧ ([(0 : ℚ), 0].length ≤ 3) ∧
      (hurstS1 [(0 : ℚ), 0, 0, 0] = 0 ∧
        hurstOffset (fun _ => (0 : ℚ)) 0 [(0 : ℚ), 0, 0, 0] =
          (fun _ => (0 : ℚ)) (0 / hurstS2 [(0 : ℚ), 0, 0, 0]) /
            (2 * (fun _ => (0 : ℚ)) 2) - 0 ∧
        hurstS2 [(0 : ℚ), 0] = 0) :=
  ⟨by norm_num, by norm_num,
    short_path_zero_sums (fun _ => 0) 0 [0, 0, 0, 0] [0, 0] (by norm_num) (by norm_num)⟩

/-- C1 counterexample: the source's `s1` loop starts at `i = 5`, not at
`i = 4` as the spec's sum `Σ_{i=4}^{N-1}` states; on the length-6 path
`[0,0,0,0,1,0]` the code's `s1` is 0 while the spec's sum is 1. -/
theorem hurst_s1_range_mismatch :
    hurstS1 ([0, 0, 0, 0, 1, 0] : List ℚ) ≠ hurstS1Spec [0, 0, 0, 0, 1, 0] := by
  have hcode : hurstS1 ([0, 0, 0, 0, 1, 0] : List ℚ) = 0 := by
    norm_num [hurstS1, List.range']
  have hspec : hurstS1Spec ([0, 0, 0, 0, 1, 0] : List ℚ) = 1 := by
    norm_num [hurstS1Spec, Finset.sum_Ico_eq_sum_range, Finset.sum_range_succ]
  rw [hcode, hspec]
  norm_num

/-- C1 amended: for every path `X` of length `N ≥ 5` and parameter α the
estimator computes `s1` as the sum over `i = 5 .. N-1` of
`|X[i] - 2 X[i-2] + X[i-4]|²`, `s2` as the sum over `i = 3 .. N-1` of
`|X[i] - 2 X[i-1] + X[i-2]|²`, and returns
`log(s1/s2) / (2 log 2) - α`. -/
theorem hurst_estimator_sums {K : Type} [LinearOrderedField K]
    (log : K → K) (alpha : K) (X : List K) (h : 5 ≤ X.length) :
    hurstS1 X = (∑ i in Finset.Ico 5 X.length,
        |X.getD i 0 - 2 * X.getD (i - 2) 0 + X.getD (i - 4) 0| ^ 2) ∧
      hurstS2 X = (∑ i in Finset.Ico 3 X.length,
        |X.getD i 0 - 2 * X.getD (i - 1) 0 + X.getD (i - 2) 0| ^ 2) ∧
      hurstOffset log alpha X =
        log (hurstS1 X / hurstS2 X) / (2 * log 2) - alpha :=
  ⟨hurstS1_eq_sum X h, hurstS2_eq_sum X (by omega), rfl⟩

/-- Witness for `hurst_estimator_sums` at a concrete path. -/
theorem hurst_estimator_sums_witness :
    5 ≤ ([0, 0, 0, 0, 0] : List ℚ).length ∧
      (hurstS1 ([0, 0, 0, 0, 0] : List ℚ) =
          (∑ i in Finset.Ico 5 ([0, 0, 0, 0, 0] : List ℚ).length,
            |([0, 0, 0, 0, 0] : List ℚ).getD i 0 -
              2 * ([0, 0, 0, 0, 0] : List ℚ).getD (i - 2) 0 +
              ([0, 0, 0, 0, 0] : List ℚ).getD (i - 4) 0| ^ 2) ∧
        hurstS2 ([0, 0, 0, 0, 0] : List ℚ) =
          (∑ i in Finset.Ico 3 ([0, 0, 0, 0, 0] : List ℚ).length,
            |([0, 0, 0, 0, 0] : List ℚ).getD i 0 -
              2 * ([0, 0, 0, 0, 0] : List ℚ).getD (i - 1) 0 +
              ([0, 0, 0, 0, 0] : List ℚ).getD (i - 2) 0| ^ 2) ∧
        hurstOffset (fun _ => (0 : ℚ)) 0 [0, 0, 0, 0, 0] =
          (fun _ => (0 : ℚ))
              (hurstS1 [(0 : ℚ), 0, 0, 0, 0] / hurstS2 [(0 : ℚ), 0, 0, 0, 0]) /
            (2 * (fun _ => (0 : ℚ)) 2) - 0) :=
  ⟨by norm_num,
    hurst_estimator_sums (fun _ => 0) 0 [0, 0, 0, 0, 0] (by norm_num)⟩

/-- C2 counterexample: a batch whose only path is degenerate (length 2 < 5).
The source's aggregation list contains one estimate for it, while the
spec-modelled aggregation that excludes degenerate estimates is empty:
nothing is excluded by the code. -/
theorem degenerate_estimate_not_excluded :
    estimateBatch (fun _ : ℚ => 0) 0 [[0, 0]] ≠
      estimateBatchSpec (fun _ : ℚ => 0) 0 [[0, 0]] := by
  have hcode : estimateBatch (fun _ : ℚ => 0) 0 [[0, 0]] = [0] := by
    norm_num [estimateBatch, hurstOffset]
  have hspec : estimateBatchSpec (fun _ : ℚ => 0) 0 [[0, 0]] = [] := by
    norm_num [estimateBatchSpec]
  rw [hcode, hspec]
  simp

/-- C2 amended: the estimator as coded performs no degenerate-input
handling: every path of the batch, in particular every degenerate one
(length < 5 or `s2 = 0`), contributes its computed offset to the
aggregation list, which always has exactly one entry per path. -/
theorem estimateBatch_includes_degenerate {K : Type} [LinearOrderedField K]
    (log : K → K) (alpha : K) (batch : List (List K)) (X : List K)
    (hX : X ∈ batch) (hdeg : DegeneratePath X) :
    hurstOffset log alpha X ∈ estimateBatch log alpha batch ∧
      (estimateBatch log alpha batch).length = batch.length := by
  rw [estimateBatch_eq_map]
  exact ⟨List.mem_map_of_mem (hurstOffset log alpha) hX, List.length_map _ _⟩

/-- Witness for `estimateBatch_includes_degenerate` on a batch with one
degenerate path. -/
theorem estimateBatch_includes_degenerate_witness :
    hurstOffset (fun _ : ℚ => 0) 0 [0, 0] ∈
        estimateBatch (fun _ : ℚ => 0) 0 [[0, 0]] ∧
      (estimateBatch (fun _ : ℚ => 0) 0 [[0, 0]]).length = [[(0 : ℚ), 0]].length :=
  estimateBatch_includes_degenerate (fun _ => 0) 0 [[0, 0]] [0, 0]
    (by simp) (Or.inl (by norm_num))

/-- C3 counterexample: a two-unit run whose first unit fails factorization
(`work 0 = none`, modelling `np.linalg.cholesky` raising) and whose second
unit would succeed on its own (`work 1 = some 1`, as the spec-modelled
per-unit semantics shows).  The source loop result is `none`: the remaining
α value is not processed, contradicting the claim. -/
theorem cholesky_failure_aborts_run :
    perAlphaLoop (fun n : ℕ => if n = 0 then none else some n) [0, 1] = none ∧
      (fun n : ℕ => if n = 0 then none else some n) 1 = some 1 ∧
      perAlphaLoopSpec (fun n : ℕ => if n = 0 then none else some n) [0, 1] =
        [none, some 1] :=
  ⟨by decide, by decide, by decide⟩

/-- C3 amended: a Cholesky factorization failure (`NotPositiveDefinite`,
modelled as `work a = none`) for one (process-family, α) unit of work
aborts the whole per-family loop: the run produces no result list, so the
remaining α values are not processed. -/
theorem perAlphaLoop_aborts_on_failure {A B : Type} (work : A → Option B)
    (a : A) (alphas : List A) (ha : a ∈ alphas) (hfail : work a = none) :
    perAlphaLoop work alphas = none := by
  induction alphas with
  | nil => cases ha
  | cons b bs ih =>
    rcases List.mem_cons.mp ha with rfl | hmem
    · simp [perAlphaLoop, hfail]
    · cases hw : work b
      · simp [perAlphaLoop, hw]
      · simp [perAlphaLoop, hw, ih hmem]

/-- Witness for `perAlphaLoop_aborts_on_failure` at a concrete run. -/
theorem perAlphaLoop_aborts_on_failure_witness :
    (0 : ℕ) ∈ [0, 1] ∧
      perAlphaLoop (fun n : ℕ => if n = 0 then none else some n) [0, 1] = none :=
  ⟨by decide,
    perAlphaLoop_aborts_on_failure (fun n : ℕ => if n = 0 then none else some n)
      0 [0, 1] (by decide) (by decide)⟩
